import Mathlib

/-!
Verification development for the chunked TTS synthesis-and-merge pipeline
(Podcast-MP3 repository).

Strings are modelled as lists of characters. Each definition below is a
shallow embedding of one JavaScript function from the repository; the file
and function are named in the doc comment of each definition.
-/

namespace Podcast

/-! ## Character classes (JS regex character classes used by the sources) -/

/-- Sentence-terminal punctuation, the character class of the regex
delimiters used by the splitters: a period, an exclamation mark or a
question mark. -/
def isTermChar (c : Char) : Bool :=
  c == '.' || c == '!' || c == '?'

/-- Whitespace, as matched by the regexes of the sources (ASCII subset of
the JS class). -/
def isWsChar (c : Char) : Bool :=
  c == ' ' || c == '\t' || c == '\n' || c == '\r' || c == '\x0b' || c == '\x0c'

/-- Word characters, the JS class of letters, digits and underscore. -/
def isWordChar (c : Char) : Bool :=
  c.isAlpha || c.isDigit || c == '_'

/-- Characters kept by the removal step of cleanText in
src/utils/textProcessor.js: word characters, whitespace and the basic
punctuation period, comma, exclamation mark, question mark, semicolon,
colon and hyphen. -/
def keepChar (c : Char) : Bool :=
  isWordChar c || isWsChar c ||
    c == '.' || c == ',' || c == '!' || c == '?' || c == ';' || c == ':' || c == '-'

/-! ## Trimming and whitespace collapsing -/

/-- Drop leading whitespace, the left half of the JS String.trim. -/
def trimL (l : List Char) : List Char :=
  l.dropWhile isWsChar

/-- Drop trailing whitespace, the right half of the JS String.trim,
written as a structural recursion. -/
def trimR : List Char → List Char
  | [] => []
  | c :: cs =>
    match trimR cs with
    | [] => if isWsChar c then [] else [c]
    | r => c :: r

/-- The JS String.trim: whitespace removed from both ends. -/
def trimChars (l : List Char) : List Char :=
  trimR (trimL l)

/-- One pass of the replacement of every whitespace run by a single
space, the JS replace of one or more whitespace characters by a space.
The flag records whether the previous character belonged to a run. -/
def collapseGo : Bool → List Char → List Char
  | _, [] => []
  | prevWs, c :: cs =>
    if isWsChar c then
      if prevWs then collapseGo true cs else ' ' :: collapseGo true cs
    else c :: collapseGo false cs

/-- Whitespace-run collapsing over a whole string. -/
def collapseWs (l : List Char) : List Char :=
  collapseGo false l

/-- cleanText from src/utils/textProcessor.js lines 107-116: trim, then
collapse whitespace runs to single spaces, then remove every character
outside the kept class. The empty input returns the empty string, as the
falsy guard of the source does. -/
def cleanText (l : List Char) : List Char :=
  (collapseWs (trimChars l)).filter keepChar

/-! ## Sentence splitting (the JS split on one-or-more terminal marks) -/

/-- Splitting on maximal runs of terminal punctuation, as the JS
String.split with the regex class of the three terminal marks and a plus
quantifier does.  The boolean records whether the scan stands inside a
delimiter run; the accumulator holds the current field reversed. -/
def splitTermGo : Bool → List Char → List Char → List (List Char)
  | _, cur, [] => [cur.reverse]
  | inRun, cur, c :: cs =>
    if isTermChar c then
      if inRun then splitTermGo true cur cs
      else cur.reverse :: splitTermGo true [] cs
    else splitTermGo false (c :: cur) cs

/-- The JS split of a string on runs of sentence-terminal punctuation. -/
def splitTerm (l : List Char) : List (List Char) :=
  splitTermGo false [] l

/-- The sentence list both splitters start from: the split fields with
blank fields removed (the filter keeps fields whose trim is non-empty). -/
def rawSentences (text : List Char) : List (List Char) :=
  (splitTerm text).filter (fun s => !(trimChars s).isEmpty)

/-- The trimmed sentences, in input order. -/
def trimmedSentences (text : List Char) : List (List Char) :=
  (rawSentences text).map trimChars

/-! ## chunkText, src/utils/textProcessor.js lines 124-151 -/

/-- The string concatenation of the accumulation step: an empty buffer is
replaced by the sentence, a non-empty one gets a period, a space and the
sentence appended. -/
def joinCur (cur t : List Char) : List Char :=
  if cur.isEmpty then t else cur ++ '.' :: ' ' :: t

/-- The accumulate-and-flush loop of chunkText.  The buffer is flushed
with a terminal period appended; the guard compares the buffer length
plus the trimmed sentence length plus one against the limit, exactly as
the source does. -/
def chunkTextLoop (maxLength : Nat) (cur : List Char) :
    List (List Char) → List (List Char)
  | [] => if cur.isEmpty then [] else [cur ++ ['.']]
  | s :: ss =>
    let t := trimChars s
    if cur.length + t.length + 1 ≤ maxLength then
      chunkTextLoop maxLength (joinCur cur t) ss
    else
      if cur.isEmpty then chunkTextLoop maxLength t ss
      else (cur ++ ['.']) :: chunkTextLoop maxLength t ss

/-- chunkText from src/utils/textProcessor.js: split into sentences, drop
blank fields, accumulate trimmed sentences into buffers bounded by
maxLength, flush each buffer with a trailing period.  A falsy (empty)
input yields no chunks. -/
def chunkText (text : List Char) (maxLength : Nat) : List (List Char) :=
  if text.isEmpty then [] else chunkTextLoop maxLength [] (rawSentences text)

/-! ### Group-level description of chunkText, used to state what the
loop preserves: each chunk renders one consecutive group of trimmed
sentences. -/

/-- Join a group of sentences with a period and a space, the separator
chunkText places between accumulated sentences. -/
def intercalateDot : List (List Char) → List Char
  | [] => []
  | [t] => t
  | t :: ts => t ++ '.' :: ' ' :: intercalateDot ts

/-- Render one group the way a flushed buffer looks: the joined sentences
followed by a terminal period. -/
def renderGroup (g : List (List Char)) : List Char :=
  intercalateDot g ++ ['.']

/-- The grouping chunkText computes, expressed on the sentence list: the
guard is the same length comparison, evaluated on the rendered buffer. -/
def groupLoop (maxLength : Nat) (acc : List (List Char)) :
    List (List Char) → List (List (List Char))
  | [] => if acc.isEmpty then [] else [acc]
  | s :: ss =>
    let t := trimChars s
    if (intercalateDot acc).length + t.length + 1 ≤ maxLength then
      groupLoop maxLength (acc ++ [t]) ss
    else
      if acc.isEmpty then groupLoop maxLength [t] ss
      else acc :: groupLoop maxLength [t] ss

/-- The consecutive sentence groups underlying the chunks of a text. -/
def sentenceGroups (text : List Char) (maxLength : Nat) :
    List (List (List Char)) :=
  groupLoop maxLength [] (rawSentences text)

/-! ## splitTextIntoChunks, src/utils/ttsProcessor.js lines 59-87 -/

/-- The accumulate-and-flush loop of splitTextIntoChunks.  It differs
from chunkText in its guard (the length of the joined candidate string)
and in emitting an over-long sentence directly, with a period appended,
when the buffer is empty. -/
def splitLoop (maxChunkSize : Nat) (cur : List Char) :
    List (List Char) → List (List Char)
  | [] => if cur.isEmpty then [] else [cur ++ ['.']]
  | s :: ss =>
    let t := trimChars s
    if t.isEmpty then splitLoop maxChunkSize cur ss
    else
      let potential := joinCur cur t
      if potential.length ≤ maxChunkSize then
        splitLoop maxChunkSize potential ss
      else
        if cur.isEmpty then (t ++ ['.']) :: splitLoop maxChunkSize [] ss
        else (cur ++ ['.']) :: splitLoop maxChunkSize t ss

/-- splitTextIntoChunks from src/utils/ttsProcessor.js: the sentence
split, the accumulate-and-flush loop, and the final filter that keeps
only chunks with non-blank content. -/
def splitTextIntoChunks (text : List Char) (maxChunkSize : Nat) :
    List (List Char) :=
  (splitLoop maxChunkSize [] (rawSentences text)).filter
    (fun c => !(trimChars c).isEmpty)

/-! ## The Semaphore of src/routes/tts.js lines 365-396

The state of the counting semaphore: the number of currently admitted
holders and the number of queued acquirers (the queue of the source holds
resolver callbacks; only its length matters to the concurrency bound). -/

structure Sem where
  current : Nat
  queue : Nat
deriving DecidableEq

/-- acquire: admit immediately while below the bound, otherwise queue the
caller. -/
def semAcquire (maxC : Nat) (s : Sem) : Sem :=
  if s.current < maxC then { s with current := s.current + 1 }
  else { s with queue := s.queue + 1 }

/-- release: decrement the holder count, then processQueue admits the
next queued acquirer when one exists and the decremented count is below
the bound. -/
def semRelease (maxC : Nat) (s : Sem) : Sem :=
  if s.queue ≠ 0 ∧ s.current - 1 < maxC then
    { current := s.current - 1 + 1, queue := s.queue - 1 }
  else { s with current := s.current - 1 }

/-- The states a semaphore can reach from the initial state: acquires are
always possible, a release needs an outstanding holder. -/
inductive SemReach (maxC : Nat) : Sem → Prop
  | init : SemReach maxC ⟨0, 0⟩
  | acq {s : Sem} : SemReach maxC s → SemReach maxC (semAcquire maxC s)
  | rel {s : Sem} : SemReach maxC s → 0 < s.current →
      SemReach maxC (semRelease maxC s)

/-! ## The batched loop of src/unnamed/part_019 lines 200-213

That route slices the chunk list into consecutive waves of `concurrency`
tasks and awaits each wave in full before starting the next.  Tasks are
modelled by their durations; a wave beginning at time T runs task `d` on
the half-open interval from T to T plus d, and the next wave begins when
the longest task of the wave ends. -/

/-- Slice a list into consecutive waves of at most `c` elements (the JS
slice loop with step `c`); the fuel argument makes the recursion
structural and is always the list length. -/
def chunkListGo (c : Nat) : Nat → List α → List (List α)
  | _, [] => []
  | 0, _ :: _ => []
  | fuel + 1, x :: xs => (x :: xs.take (c - 1)) :: chunkListGo c fuel (xs.drop (c - 1))

/-- The waves of the batched loop. -/
def chunkList (c : Nat) (l : List α) : List (List α) :=
  chunkListGo c l.length l

/-- The duration of a wave: its longest task. -/
def waveMax (w : List Nat) : Nat := w.foldr max 0

/-- Number of tasks executing at instant t under the batched schedule
whose first wave starts at `start`. -/
def inflightAt (start : Nat) : List (List Nat) → Nat → Nat
  | [], _ => 0
  | w :: ws, t =>
    if t < start + waveMax w then w.countP (fun d => t < start + d)
    else inflightAt (start + waveMax w) ws t

/-- Number of tasks that have not yet been started at instant t under the
batched schedule. -/
def notStartedAt (start : Nat) : List (List Nat) → Nat → Nat
  | [], _ => 0
  | w :: ws, t =>
    if t < start then w.length + (ws.map List.length).sum
    else if t < start + waveMax w then (ws.map List.length).sum
    else notStartedAt (start + waveMax w) ws t

/-! ## Result collection of the chunked route, src/routes/tts.js
lines 131-168

Promise.allSettled returns the outcomes in submission order.  An outcome
is `some b` for a fulfilled task whose audio buffer holds b bytes and
`none` for a rejected one; the fulfilled value of task i carries index i,
because the map callback closes over its position. -/

structure ChunkRes where
  index : Nat
  bytesApprox : Nat
deriving DecidableEq

/-- The fulfilled results, in settlement-array order, with their original
indices (counting from i). -/
def fulfilledFrom (i : Nat) : List (Option Nat) → List ChunkRes
  | [] => []
  | some b :: os => ⟨i, b⟩ :: fulfilledFrom (i + 1) os
  | none :: os => fulfilledFrom (i + 1) os

/-- The failed positions (counting from i), as the route computes
failedChunks from the rejected entries. -/
def failedFrom (i : Nat) : List (Option Nat) → List Nat
  | [] => []
  | some _ :: os => failedFrom (i + 1) os
  | none :: os => i :: failedFrom (i + 1) os

/-- Stable insertion by ascending index, modelling the JS comparator
sort on a.index minus b.index. -/
def insertByIdx (c : ChunkRes) : List ChunkRes → List ChunkRes
  | [] => [c]
  | d :: ds => if c.index ≤ d.index then c :: d :: ds else d :: insertByIdx c ds

/-- The sort of the route (JS Array.sort with the index comparator). -/
def sortByIdx : List ChunkRes → List ChunkRes
  | [] => []
  | c :: cs => insertByIdx c (sortByIdx cs)

/-- successfulResults: fulfilled values sorted ascending by index. -/
def successfulResults (os : List (Option Nat)) : List ChunkRes :=
  sortByIdx (fulfilledFrom 0 os)

/-- failedChunks: the positions of rejected outcomes. -/
def failedChunks (os : List (Option Nat)) : List Nat :=
  failedFrom 0 os

/-- totalBytes: the reduce summing bytesApprox over successfulResults. -/
def totalBytes (os : List (Option Nat)) : Nat :=
  (successfulResults os).foldl (fun acc c => acc + c.bytesApprox) 0

/-- The response of the chunked route: a 500 error carrying the failed
list when nothing succeeded, otherwise the success body, with a warnings
block exactly when some chunk failed. -/
inductive ChunkedReply
  | err500 (failedList : List Nat)
  | ok (count : Nat) (chunks : List ChunkRes) (summaryBytesApprox : Nat)
      (warnings : Option (List Nat))
deriving DecidableEq

/-- The result handling of the chunked route, lines 131-168. -/
def chunkedResponse (os : List (Option Nat)) : ChunkedReply :=
  if (successfulResults os).length = 0 then .err500 (failedChunks os)
  else
    .ok (successfulResults os).length (successfulResults os) (totalBytes os)
      (if (failedChunks os).length > 0 then some (failedChunks os) else none)

/-- The failure list a reply carries, wherever it sits in the body. -/
def reportedFailures : ChunkedReply → Option (List Nat)
  | .err500 f => some f
  | .ok _ _ _ w => w

/-! ## processTTSChunks, src/utils/processorTTS.js lines 14-56

The sequential loop synthesizes and uploads chunk by chunk and rethrows
the first failure.  The synthesis function returns `some b` for an audio
buffer and `none` for a failure (a thrown error or an empty buffer);
uploads are modelled as succeeding, their public URL identified by the
chunk index of its key.  The pair returned is the list of chunk indices
for which synthesis was attempted, and the outcome. -/

def processTTSGo (tts : α → Option Nat) : Nat → List α →
    List Nat × Except Unit (List Nat)
  | _, [] => ([], .ok [])
  | i, c :: cs =>
    match tts c with
    | none => ([i], .error ())
    | some _ =>
      let r := processTTSGo tts (i + 1) cs
      (i :: r.1,
        match r.2 with
        | .ok us => .ok (i :: us)
        | .error e => .error e)

/-- The outcome of processTTSChunks: an empty chunk list throws, and the
loop rethrows the first chunk failure. -/
def processTTSChunks (tts : α → Option Nat) (chunks : List α) :
    Except Unit (List Nat) :=
  if chunks.isEmpty then .error () else (processTTSGo tts 0 chunks).2

/-- The chunk indices the loop attempts before returning. -/
def processAttempts (tts : α → Option Nat) (chunks : List α) : List Nat :=
  if chunks.isEmpty then [] else (processTTSGo tts 0 chunks).1

/-- The position of the first chunk whose synthesis fails. -/
def firstNoneIdx (tts : α → Option Nat) : Nat → List α → Option Nat
  | _, [] => none
  | i, c :: cs => if (tts c).isNone then some i else firstNoneIdx tts (i + 1) cs

/-! ## mergeAudioFiles, src/unnamed/part_013 lines 15-50

Buffers are byte lists.  The source allocates a buffer of the summed
length and copies every input into it in order; copying the inputs in
order into a fresh buffer is concatenation. -/

/-- The copy loop of mergeAudioFiles. -/
def copyAll : List (List Nat) → List Nat
  | [] => []
  | b :: bs => b ++ copyAll bs

/-- mergeAudioFiles: empty input yields an empty buffer, a single buffer
is returned as is, otherwise all buffers are copied in order. -/
def mergeAudioFiles : List (List Nat) → List Nat
  | [] => []
  | [b] => b
  | bs => copyAll bs

/-! ## uploadToR2, src/utils/r2.js lines 23-131

An attempt either returns a public URL or fails with an error; errors
carry a flag saying whether the failure would be classified as permanent
(authorization, malformed key) rather than transient.  The source never
reads any such classification: its catch block treats every error alike. -/

structure UploadErr where
  permanent : Bool
  code : Nat
deriving DecidableEq

/-- The error thrown after the last attempt: it wraps the last underlying
error (the originalError field of the source) and records the attempt
count. -/
structure FinalErr where
  originalError : UploadErr
  attempts : Nat
deriving DecidableEq

instance {ε α : Type} [DecidableEq ε] [DecidableEq α] :
    DecidableEq (Except ε α) := fun x y =>
  match x, y with
  | .ok a, .ok b =>
    if h : a = b then .isTrue (by rw [h]) else .isFalse (by simp [h])
  | .error a, .error b =>
    if h : a = b then .isTrue (by rw [h]) else .isFalse (by simp [h])
  | .ok _, .error _ => .isFalse (by simp)
  | .error _, .ok _ => .isFalse (by simp)

/-- One run of the retry loop: the outcome, the number of the attempt the
loop stopped at, and the backoff delays slept between attempts. -/
structure UploadRun where
  result : Except FinalErr Nat
  stoppedAt : Nat
  delays : List Nat
deriving DecidableEq

/-- The backoff before the retry following a failed attempt: one second
doubled per attempt number, capped at ten seconds, in milliseconds. -/
def backoffMs (attempt : Nat) : Nat :=
  min (1000 * 2 ^ attempt) 10000

/-- The retry loop of uploadToR2.  `send a` is the outcome of attempt
number a (a URL identifier or an error); `fuel` counts the retries still
allowed, so the loop runs attempts `attempt` to `attempt + fuel` and the
last allowed attempt throws the wrapping error instead of retrying, as
the equality test against maxRetries does in the source. -/
def runUploadGo (send : Nat → Except UploadErr Nat) :
    Nat → Nat → UploadRun
  | attempt, 0 =>
    match send attempt with
    | .ok url => ⟨.ok url, attempt, []⟩
    | .error e => ⟨.error ⟨e, attempt⟩, attempt, []⟩
  | attempt, fuel + 1 =>
    match send attempt with
    | .ok url => ⟨.ok url, attempt, []⟩
    | .error _ =>
      let r := runUploadGo send (attempt + 1) fuel
      ⟨r.result, r.stoppedAt, backoffMs attempt :: r.delays⟩

/-- uploadToR2 with a given maxRetries: attempts start at one. -/
def uploadToR2Run (send : Nat → Except UploadErr Nat) (maxRetries : Nat) :
    UploadRun :=
  runUploadGo send 1 (maxRetries - 1)

/-! ## The asynchronous job of src/routes/tts.js lines 446-585

The in-memory job store maps a session id to a job record.  The async
worker synthesizeAllChunks (lines 517-560) flips the job to running,
updates progress as chunk completions arrive and finally marks the job
done; the enqueue route catch marks it error. -/

inductive JobStatus
  | queued
  | running
  | done
  | error
deriving DecidableEq

structure Job where
  status : JobStatus
  progress : Nat
  resultKey : Option Nat := none
deriving DecidableEq

/-- The job created at submission. -/
def initialJob : Job := ⟨.queued, 0, none⟩

/-- The JS Math.round of a rational numerator over a positive
denominator: the floor of the value plus one half. -/
def jsRound (num den : Nat) : Nat :=
  (2 * num + den) / (2 * den)

/-- The progress the worker stores when the task for chunk `idx` (zero
based) completes out of `total` chunks: Math.round of idx plus one over
the total, times one hundred. -/
def progressOnComplete (total idx : Nat) : Nat :=
  jsRound ((idx + 1) * 100) total

/-- The progress value the claim prescribes when `completed` of `total`
chunks have finished: completed over total, times one hundred. -/
def claimedProgress (total completed : Nat) : Nat :=
  jsRound (completed * 100) total

/-- One run of synthesizeAllChunks over `total` chunks whose tasks
complete in the order given by `order` (a list of chunk indices): the
job is flipped to running, each completion stores its progress, and the
job is finally marked done.  Returned are the final job and the progress
values observed after each completion, in completion order. -/
def runSynthesis (total : Nat) (order : List Nat) (j : Job) :
    Job × List Nat :=
  let started : Job := { j with status := .running }
  let step := fun (acc : Job × List Nat) (idx : Nat) =>
    let j' : Job := { acc.1 with progress := progressOnComplete total idx }
    (j', acc.2 ++ [j'.progress])
  let r := order.foldl step (started, [])
  ({ r.1 with status := .done, resultKey := some 0 }, r.2)

/-! ## The enqueue route, src/routes/tts.js lines 567-585

The job store is a map from session ids to jobs, one binding per key.
Posting with a falsy session id answers 400; otherwise a job is created
and the worker started only when the key is absent, and the route always
answers 202 with the status and result URLs derived from the session id. -/

/-- A reply of the enqueue route. -/
inductive EnqueueReply
  | badRequest
  | accepted (statusUrl resultUrl : String)
deriving DecidableEq

/-- The outcome of one POST: the store afterwards, whether a new worker
was started, and the reply. -/
structure PostOutcome where
  store : String → Option Job
  started : Bool
  reply : EnqueueReply

/-- The status URL of a session (enc is the URI-component encoding). -/
def statusUrl (enc : String → String) (sessionId : String) : String :=
  "/api/tts/" ++ enc sessionId ++ "/status"

/-- The result URL of a session. -/
def resultUrl (enc : String → String) (sessionId : String) : String :=
  "/api/tts/" ++ enc sessionId ++ "/audio"

/-- The enqueue route handler. -/
def postTTSJob (enc : String → String) (store : String → Option Job)
    (sessionId : String) : PostOutcome :=
  if sessionId = "" then ⟨store, false, .badRequest⟩
  else
    match store sessionId with
    | some _ =>
      ⟨store, false, .accepted (statusUrl enc sessionId) (resultUrl enc sessionId)⟩
    | none =>
      ⟨fun k => if k = sessionId then some initialJob else store k, true,
        .accepted (statusUrl enc sessionId) (resultUrl enc sessionId)⟩

/-! ## Shape predicates for normalized text, used to reason about the
fixed points of trimming and whitespace collapsing -/

/-- The first character, when there is one, is not whitespace. -/
def noLeadWs : List Char → Prop
  | [] => True
  | c :: _ => isWsChar c = false

/-- The last character, when there is one, is not whitespace. -/
def lastNonWs : List Char → Prop
  | [] => True
  | [c] => isWsChar c = false
  | _ :: c :: cs => lastNonWs (c :: cs)

/-- Every whitespace character of the string is a plain space. -/
def allSpaceWs (l : List Char) : Prop :=
  ∀ c ∈ l, isWsChar c = true → c = ' '

/-- No two adjacent characters are both whitespace. -/
def noAdjWs : List Char → Prop
  | [] => True
  | [_] => True
  | a :: b :: cs => ¬(isWsChar a = true ∧ isWsChar b = true) ∧ noAdjWs (b :: cs)

/-! # Lemmas about the result collector -/

theorem fulfilledFrom_index_ge (os : List (Option Nat)) :
    ∀ i, ∀ c ∈ fulfilledFrom i os, i ≤ c.index := by
  induction os with
  | nil => intro i c hc; simp [fulfilledFrom] at hc
  | cons o os ih =>
    intro i c hc
    cases o with
    | some b =>
      simp only [fulfilledFrom, List.mem_cons] at hc
      rcases hc with h | h
      · simp [h]
      · exact Nat.le_of_succ_le (ih (i + 1) c h)
    | none =>
      simp only [fulfilledFrom] at hc
      exact Nat.le_of_succ_le (ih (i + 1) c hc)

theorem fulfilledFrom_pairwise (os : List (Option Nat)) :
    ∀ i, List.Pairwise (fun a b : ChunkRes => a.index < b.index)
      (fulfilledFrom i os) := by
  induction os with
  | nil => intro i; simp [fulfilledFrom]
  | cons o os ih =>
    intro i
    cases o with
    | some b =>
      simp only [fulfilledFrom, List.pairwise_cons]
      refine ⟨fun c hc => ?_, ih (i + 1)⟩
      exact Nat.lt_of_lt_of_le (Nat.lt_succ_self i) (fulfilledFrom_index_ge os (i + 1) c hc)
    | none => simpa [fulfilledFrom] using ih (i + 1)

theorem insertByIdx_front (c : ChunkRes) (l : List ChunkRes)
    (h : ∀ d ∈ l, c.index ≤ d.index) : insertByIdx c l = c :: l := by
  cases l with
  | nil => rfl
  | cons d ds => simp [insertByIdx, h d (by simp)]

theorem sortByIdx_sorted_id (l : List ChunkRes)
    (h : List.Pairwise (fun a b : ChunkRes => a.index ≤ b.index) l) :
    sortByIdx l = l := by
  induction l with
  | nil => rfl
  | cons c cs ih =>
    rw [List.pairwise_cons] at h
    simp only [sortByIdx, ih h.2]
    exact insertByIdx_front c cs h.1

theorem fulfilledFrom_length (os : List (Option Nat)) :
    ∀ i, (fulfilledFrom i os).length = os.countP (fun o => o.isSome) := by
  induction os with
  | nil => intro i; simp [fulfilledFrom]
  | cons o os ih =>
    intro i
    cases o with
    | some b => simp [fulfilledFrom, List.countP_cons, ih (i + 1), Option.isSome]
    | none => simp [fulfilledFrom, List.countP_cons, ih (i + 1), Option.isSome]

theorem failedFrom_length (os : List (Option Nat)) :
    ∀ i, (failedFrom i os).length = os.countP (fun o => o.isNone) := by
  induction os with
  | nil => intro i; simp [failedFrom]
  | cons o os ih =>
    intro i
    cases o with
    | some b => simp [failedFrom, List.countP_cons, ih (i + 1), Option.isNone]
    | none => simp [failedFrom, List.countP_cons, ih (i + 1), Option.isNone]

theorem failedFrom_mem (os : List (Option Nat)) :
    ∀ i j, j ∈ failedFrom i os ↔ ∃ k, os[k]? = some none ∧ j = i + k := by
  induction os with
  | nil => intro i j; simp [failedFrom]
  | cons o os ih =>
    intro i j
    cases o with
    | some b =>
      simp only [failedFrom, ih (i + 1) j]
      constructor
      · rintro ⟨k, hk, hj⟩
        exact ⟨k + 1, by simpa using hk, by omega⟩
      · rintro ⟨k, hk, hj⟩
        cases k with
        | zero => simp at hk
        | succ k => exact ⟨k, by simpa using hk, by omega⟩
    | none =>
      simp only [failedFrom, List.mem_cons, ih (i + 1) j]
      constructor
      · rintro (h | ⟨k, hk, hj⟩)
        · exact ⟨0, by simp, by omega⟩
        · exact ⟨k + 1, by simpa using hk, by omega⟩
      · rintro ⟨k, hk, hj⟩
        cases k with
        | zero => left; omega
        | succ k => right; exact ⟨k, by simpa using hk, by omega⟩

theorem fulfilledFrom_bytes (os : List (Option Nat)) :
    ∀ i, (fulfilledFrom i os).map (fun c => c.bytesApprox) = os.filterMap id := by
  induction os with
  | nil => intro i; simp [fulfilledFrom]
  | cons o os ih =>
    intro i
    cases o with
    | some b => simp [fulfilledFrom, ih (i + 1)]
    | none => simp [fulfilledFrom, ih (i + 1)]

theorem foldl_add_bytes (l : List ChunkRes) :
    ∀ n, l.foldl (fun acc c => acc + c.bytesApprox) n
      = n + (l.map (fun c => c.bytesApprox)).sum := by
  induction l with
  | nil => intro n; simp
  | cons c cs ih => intro n; simp [List.foldl_cons, ih, Nat.add_assoc]

theorem successfulResults_eq (os : List (Option Nat)) :
    successfulResults os = fulfilledFrom 0 os := by
  unfold successfulResults
  exact sortByIdx_sorted_id _
    ((fulfilledFrom_pairwise os 0).imp (fun h => Nat.le_of_lt h))

/-- Claim C2: for every mixture of successful and failing synthesis tasks
the chunked route returns exactly the fulfilled entries sorted ascending
by original index, exactly the rejected positions as the failed list, and
a byte total equal to the sum of the fulfilled byte counts; and it
answers with the request-level 500 error exactly when nothing
succeeded. -/
theorem c2_collector_correct (os : List (Option Nat)) :
    successfulResults os = fulfilledFrom 0 os
    ∧ List.Pairwise (fun a b : ChunkRes => a.index < b.index)
        (successfulResults os)
    ∧ (successfulResults os).length = os.countP (fun o => o.isSome)
    ∧ (failedChunks os).length = os.countP (fun o => o.isNone)
    ∧ (∀ j, j ∈ failedChunks os ↔ os[j]? = some none)
    ∧ totalBytes os = (os.filterMap id).sum
    ∧ (chunkedResponse os = ChunkedReply.err500 (failedChunks os) ↔
        os.countP (fun o => o.isSome) = 0) := by
  have hsr := successfulResults_eq os
  have hlen : (successfulResults os).length = os.countP (fun o => o.isSome) := by
    rw [hsr]; exact fulfilledFrom_length os 0
  refine ⟨hsr, ?_, hlen, failedFrom_length os 0, ?_, ?_, ?_⟩
  · rw [hsr]; exact fulfilledFrom_pairwise os 0
  · intro j
    rw [failedChunks, failedFrom_mem os 0 j]
    constructor
    · rintro ⟨k, hk, hj⟩
      rwa [show j = k by omega]
    · intro h
      exact ⟨j, h, by omega⟩
  · rw [totalBytes, foldl_add_bytes, hsr, fulfilledFrom_bytes os 0, Nat.zero_add]
  · by_cases h : (successfulResults os).length = 0
    · simp [chunkedResponse, h, ← hlen]
    · simp [chunkedResponse, h, ← hlen]

/-! # Lemmas about failure propagation -/

theorem fulfilled_failed_length (os : List (Option Nat)) :
    ∀ i, (fulfilledFrom i os).length + (failedFrom i os).length = os.length := by
  induction os with
  | nil => intro i; simp [fulfilledFrom, failedFrom]
  | cons o os ih =>
    intro i
    cases o with
    | some b => simp [fulfilledFrom, failedFrom, ← ih (i + 1)]; omega
    | none => simp [fulfilledFrom, failedFrom, ← ih (i + 1)]; omega

theorem firstNoneIdx_ge (tts : α → Option Nat) (cs : List α) :
    ∀ i k, firstNoneIdx tts i cs = some k → i ≤ k := by
  induction cs with
  | nil => intro i k h; simp [firstNoneIdx] at h
  | cons c cs ih =>
    intro i k h
    simp only [firstNoneIdx] at h
    by_cases hc : (tts c).isNone
    · simp [hc] at h; omega
    · simp [hc] at h; exact Nat.le_of_succ_le (ih (i + 1) k h)

theorem processTTSGo_stops (tts : α → Option Nat) (cs : List α) :
    ∀ i k, firstNoneIdx tts i cs = some k →
      (processTTSGo tts i cs).1 = List.range' i (k + 1 - i)
      ∧ (processTTSGo tts i cs).2 = .error () := by
  induction cs with
  | nil => intro i k h; simp [firstNoneIdx] at h
  | cons c cs ih =>
    intro i k h
    cases htc : tts c with
    | none =>
      have hk : i = k := by simpa [firstNoneIdx, htc] using h
      subst hk
      have h1 : i + 1 - i = 1 := by omega
      simp [processTTSGo, htc, h1, List.range']
    | some b =>
      have h' : firstNoneIdx tts (i + 1) cs = some k := by
        simpa [firstNoneIdx, htc] using h
      have hge := firstNoneIdx_ge tts cs (i + 1) k h'
      have ihh := ih (i + 1) k h'
      have h1 : k + 1 - i = (k - i) + 1 := by omega
      have h2 : k + 1 - (i + 1) = k - i := by omega
      constructor
      · simp only [processTTSGo, htc, ihh.1, h1, h2, List.range'_succ]
      · simp only [processTTSGo, htc, ihh.2]

theorem processTTSGo_all_ok (tts : α → Option Nat) (cs : List α) :
    ∀ i, firstNoneIdx tts i cs = none →
      (processTTSGo tts i cs).1 = List.range' i cs.length
      ∧ (processTTSGo tts i cs).2 = .ok (List.range' i cs.length) := by
  induction cs with
  | nil => intro i _; simp [processTTSGo]
  | cons c cs ih =>
    intro i h
    cases htc : tts c with
    | none => simp [firstNoneIdx, htc] at h
    | some b =>
      have h' : firstNoneIdx tts (i + 1) cs = none := by
        simpa [firstNoneIdx, htc] using h
      have ihh := ih (i + 1) h'
      simp [processTTSGo, htc, ihh.1, ihh.2, List.range'_succ]

/-- Claim C5 (amended): the chunked route classifies every submitted task
as fulfilled or rejected (the two counts always sum to the task count)
and its reply carries the failed index list whenever a failure occurred,
both in the all-failed error and in the partial-success warnings block.
The sequential processTTSChunks loop, in contrast, attempts exactly the
chunks up to and including the first failing index and rethrows, so later
chunks are never attempted; only when no chunk fails does it process all
of them. -/
theorem c5_amended :
    (∀ os : List (Option Nat),
      (fulfilledFrom 0 os).length + (failedFrom 0 os).length = os.length
      ∧ (failedChunks os ≠ [] →
          reportedFailures (chunkedResponse os) = some (failedChunks os)))
    ∧ (∀ (chunks : List Nat) (tts : Nat → Option Nat) (k : Nat),
        firstNoneIdx tts 0 chunks = some k →
          processAttempts tts chunks = List.range' 0 (k + 1)
          ∧ processTTSChunks tts chunks = .error ())
    ∧ (∀ (chunks : List Nat) (tts : Nat → Option Nat),
        firstNoneIdx tts 0 chunks = none → chunks ≠ [] →
          processAttempts tts chunks = List.range' 0 chunks.length
          ∧ processTTSChunks tts chunks = .ok (List.range' 0 chunks.length)) := by
  refine ⟨fun os => ⟨fulfilled_failed_length os 0, fun hne => ?_⟩, ?_, ?_⟩
  · by_cases h : (successfulResults os).length = 0
    · simp [chunkedResponse, reportedFailures, h]
    · have : (failedChunks os).length > 0 := by
        cases hfc : failedChunks os with
        | nil => exact absurd hfc hne
        | cons a l => simp
      simp [chunkedResponse, reportedFailures, h, this]
  · intro chunks tts k h
    have hne : chunks ≠ [] := by
      cases chunks with
      | nil => simp [firstNoneIdx] at h
      | cons c cs => simp
    have hstops := processTTSGo_stops tts chunks 0 k h
    have hempty : chunks.isEmpty = false := by
      cases chunks with
      | nil => exact absurd rfl hne
      | cons c cs => rfl
    constructor
    · rw [processAttempts, hempty]
      simpa using hstops.1
    · rw [processTTSChunks, hempty]
      simpa using hstops.2
  · intro chunks tts h hne
    have hok := processTTSGo_all_ok tts chunks 0 h
    have hempty : chunks.isEmpty = false := by
      cases chunks with
      | nil => exact absurd rfl hne
      | cons c cs => rfl
    constructor
    · rw [processAttempts, hempty]; exact hok.1
    · rw [processTTSChunks, hempty]; exact hok.2

/-- Witness for C5: concrete instances of the three parts of the amended
claim, with every hypothesis discharged by computation. -/
theorem c5_amended_witness :
    ((fulfilledFrom 0 [some 1, none]).length
        + (failedFrom 0 [some 1, none]).length = 2
      ∧ reportedFailures (chunkedResponse [some 1, none]) = some [1])
    ∧ processAttempts (fun _ => (none : Option Nat)) [3, 4] = [0]
    ∧ processAttempts (fun n => some n) [3, 4] = [0, 1] := by
  refine ⟨⟨(c5_amended.1 [some 1, none]).1, ?_⟩, ?_, ?_⟩
  · exact ((c5_amended.1 [some 1, none]).2 (by decide)).trans (by decide)
  · exact ((c5_amended.2.1 [3, 4] (fun _ => none) 0 (by decide)).1).trans (by decide)
  · exact ((c5_amended.2.2 [3, 4] (fun n => some n) (by decide) (by decide)).1).trans
      (by decide)

/-- Counterexample for C5 as stated: with two submitted chunks whose
first synthesis fails, processTTSChunks attempts only chunk zero — the
sibling chunk never reaches a terminal state — and returns an error
carrying no failed-index list. -/
theorem c5_counterexample :
    processAttempts (fun n => if n = 0 then none else some 7) [0, 1] = [0]
    ∧ processTTSChunks (fun n => if n = 0 then none else some 7) [0, 1]
        = .error ()
    ∧ ([0] : List Nat) ≠ [0, 1] := by decide

/-! # Lemmas about the worker pools -/

theorem semReach_invariant (maxC : Nat) (s : Sem) (h : SemReach maxC s) :
    s.current ≤ maxC ∧ (s.queue ≠ 0 → s.current = maxC) := by
  induction h with
  | init => exact ⟨Nat.zero_le _, fun hq => absurd rfl hq⟩
  | @acq s' h ih =>
    unfold semAcquire
    split_ifs with hlt
    · refine ⟨?_, fun hq => ?_⟩
      · show s'.current + 1 ≤ maxC
        omega
      · have hq' : s'.queue ≠ 0 := hq
        exact absurd (ih.2 hq') (by omega)
    · refine ⟨?_, fun _ => ?_⟩
      · show s'.current ≤ maxC
        exact ih.1
      · show s'.current = maxC
        have := ih.1
        omega
  | @rel s' h hpos ih =>
    unfold semRelease
    split_ifs with hcond
    · refine ⟨?_, fun hq => ?_⟩
      · show s'.current - 1 + 1 ≤ maxC
        have := ih.1
        omega
      · have hq' : s'.queue - 1 ≠ 0 := hq
        have h2 := ih.2 (by omega)
        show s'.current - 1 + 1 = maxC
        omega
    · rw [not_and_or] at hcond
      refine ⟨?_, fun hq => ?_⟩
      · show s'.current - 1 ≤ maxC
        have := ih.1
        omega
      · have hq' : s'.queue ≠ 0 := hq
        show s'.current - 1 = maxC
        rcases hcond with hq0 | hge
        · exact absurd hq' (by simpa using hq0)
        · have := ih.1
          omega

theorem chunkListGo_wave_length (c : Nat) (hc : 1 ≤ c) :
    ∀ (fuel : Nat) (l : List α) w, w ∈ chunkListGo c fuel l → w.length ≤ c := by
  intro fuel
  induction fuel with
  | zero =>
    intro l w hw
    cases l with
    | nil => simp [chunkListGo] at hw
    | cons x xs => simp [chunkListGo] at hw
  | succ fuel ih =>
    intro l w hw
    cases l with
    | nil => simp [chunkListGo] at hw
    | cons x xs =>
      simp only [chunkListGo, List.mem_cons] at hw
      rcases hw with h | h
      · subst h
        simp only [List.length_cons, List.length_take]
        omega
      · exact ih _ w h

theorem inflightAt_le_of_waves (c : Nat) (ws : List (List Nat))
    (hw : ∀ w ∈ ws, w.length ≤ c) :
    ∀ start t, inflightAt start ws t ≤ c := by
  induction ws with
  | nil => intro start t; simp [inflightAt]
  | cons w ws ih =>
    intro start t
    unfold inflightAt
    split_ifs with hlt
    · exact Nat.le_trans (List.countP_le_length _) (hw w (by simp))
    · exact ih (fun v hv => hw v (by simp [hv])) _ t

/-- Claim C1 (amended): the Semaphore-based pool of src/routes/tts.js
never exceeds the concurrency bound and, whenever acquirers are queued,
exactly the bound many tasks hold the semaphore — a release admits the
next queued task immediately, so the pool stays saturated while work
remains.  The batched loop of src/unnamed/part_019 also never exceeds the
bound at any instant, but it admits tasks only in fixed-size waves. -/
theorem c1_amended :
    (∀ (maxC : Nat) (s : Sem), SemReach maxC s →
      s.current ≤ maxC ∧ (s.queue ≠ 0 → s.current = maxC))
    ∧ (∀ (c : Nat) (ds : List Nat) (t : Nat), 1 ≤ c →
        inflightAt 0 (chunkList c ds) t ≤ c) := by
  refine ⟨fun maxC s h => semReach_invariant maxC s h, fun c ds t hc => ?_⟩
  exact inflightAt_le_of_waves c _
    (fun w hw => chunkListGo_wave_length c hc _ ds w hw) 0 t

/-- Witness for C1: the invariant at a reachable semaphore state, and the
wave bound of a concrete batched run. -/
theorem c1_amended_witness :
    ((semAcquire 2 ⟨0, 0⟩).current ≤ 2
      ∧ ((semAcquire 2 ⟨0, 0⟩).queue ≠ 0 → (semAcquire 2 ⟨0, 0⟩).current = 2))
    ∧ inflightAt 0 (chunkList 2 [4, 4, 4]) 1 ≤ 2 :=
  ⟨c1_amended.1 2 (semAcquire 2 ⟨0, 0⟩) (SemReach.acq SemReach.init),
    c1_amended.2 2 [4, 4, 4] 1 (by decide)⟩

/-- Counterexample for C1 as stated: the batched loop of part_019, run
with concurrency two over three tasks of durations one, two and five,
has only one task in flight at instant one while the third task is still
queued — the slot freed by the finished task is not refilled until its
whole wave completes, so the pool does not keep exactly C calls in
flight while work remains. -/
theorem c1_counterexample :
    inflightAt 0 (chunkList 2 [1, 2, 5]) 1 = 1
    ∧ notStartedAt 0 (chunkList 2 [1, 2, 5]) 1 = 1
    ∧ (1 : Nat) < 2 := by decide

/-! # Lemmas about audio assembly -/

theorem copyAll_eq_join : ∀ bufs : List (List Nat), copyAll bufs = bufs.flatten := by
  intro bufs
  induction bufs with
  | nil => rfl
  | cons b bs ih => simp [copyAll, ih]

theorem mergeAudioFiles_eq_join (bufs : List (List Nat)) :
    mergeAudioFiles bufs = bufs.flatten := by
  match bufs with
  | [] => rfl
  | [b] => simp [mergeAudioFiles]
  | b :: c :: bs => simp [mergeAudioFiles, copyAll_eq_join]

/-- Claim C6 (amended): assembly is exactly order-preserving
concatenation — the merged buffer is the inputs joined in input order,
with no reordering and no gap bytes — and any reordering of the buffers
preserves the total byte count.  Two orders of the same buffers are
byte-distinguishable whenever two swapped buffers of equal length differ,
as in the specification test with distinct fixed-size buffers; without
the equal-length proviso two distinct orders can coincide byte for
byte. -/
theorem c6_amended :
    (∀ bufs : List (List Nat), mergeAudioFiles bufs = bufs.flatten)
    ∧ (∀ bufs bufs' : List (List Nat), bufs.Perm bufs' →
        (mergeAudioFiles bufs).length = (mergeAudioFiles bufs').length)
    ∧ (∀ A B C : List Nat, A.length = C.length → A ≠ C →
        mergeAudioFiles [A, B, C] ≠ mergeAudioFiles [C, B, A]) := by
  refine ⟨mergeAudioFiles_eq_join, fun bufs bufs' hp => ?_, fun A B C hlen hne => ?_⟩
  · rw [mergeAudioFiles_eq_join, mergeAudioFiles_eq_join,
      List.length_flatten, List.length_flatten]
    exact (hp.map List.length).sum_eq
  · rw [mergeAudioFiles_eq_join, mergeAudioFiles_eq_join]
    intro heq
    simp only [List.flatten] at heq
    exact hne (List.append_inj heq hlen).1

/-- Witness for C6: concrete instances of the three parts. -/
theorem c6_amended_witness :
    mergeAudioFiles [[1], [2]] = [1, 2]
    ∧ (mergeAudioFiles [[1], [2]]).length = (mergeAudioFiles [[2], [1]]).length
    ∧ mergeAudioFiles [[1], [5], [2]] ≠ mergeAudioFiles [[2], [5], [1]] :=
  ⟨(c6_amended.1 [[1], [2]]).trans (by decide),
    c6_amended.2.1 [[1], [2]] [[2], [1]] (List.Perm.swap [2] [1] []),
    c6_amended.2.2 [1] [5] [2] (by decide) (by decide)⟩

/-- Counterexample for C6 as stated: the buffer lists written below hold
the same buffers in two different orders, yet merging them produces
byte-identical outputs, so reordering does not always yield a different
content order. -/
theorem c6_counterexample :
    ([[0], [0], [0, 0]] : List (List Nat)) ≠ [[0, 0], [0], [0]]
    ∧ List.Perm ([[0], [0], [0, 0]] : List (List Nat)) [[0, 0], [0], [0]]
    ∧ mergeAudioFiles [[0], [0], [0, 0]] = mergeAudioFiles [[0, 0], [0], [0]] := by
  refine ⟨by decide, ?_, by decide⟩
  exact List.Perm.trans (List.Perm.cons [0] (List.Perm.swap [0, 0] [0] []))
    (List.Perm.swap [0, 0] [0] [[0]])

/-! # Lemmas about the upload retry loop -/

/-- Claim C7 (amended): uploadToR2 retries every failure — the code never
classifies an error as permanent — up to three attempts, sleeping the
capped doubling backoff between attempts: an upload failing on attempts
one and two and succeeding on attempt three returns the URL after exactly
three attempts with delays of two and four seconds, an upload failing on
every attempt stops after three attempts and throws the error wrapping
the last underlying error, and each backoff is the double of the
previous one capped at ten seconds. -/
theorem c7_amended :
    (∀ (send : Nat → Except UploadErr Nat) (e1 e2 : UploadErr) (url : Nat),
      send 1 = .error e1 → send 2 = .error e2 → send 3 = .ok url →
        uploadToR2Run send 3 = ⟨.ok url, 3, [2000, 4000]⟩)
    ∧ (∀ (send : Nat → Except UploadErr Nat) (e : Nat → UploadErr),
        (∀ a, send a = .error (e a)) →
          uploadToR2Run send 3 = ⟨.error ⟨e 3, 3⟩, 3, [2000, 4000]⟩)
    ∧ (∀ a : Nat, backoffMs (a + 1) = min (2 * backoffMs a) 10000) := by
  refine ⟨fun send e1 e2 url h1 h2 h3 => ?_, fun send e he => ?_, fun a => ?_⟩
  · show runUploadGo send 1 2 = _
    simp only [runUploadGo, h1, h2, h3]
    norm_num [backoffMs]
  · show runUploadGo send 1 2 = _
    simp only [runUploadGo, he 1, he 2, he 3]
    norm_num [backoffMs]
  · have h2 : 1000 * 2 ^ (a + 1) = 2 * (1000 * 2 ^ a) := by ring
    unfold backoffMs
    rw [h2]
    omega

/-- Witness for C7: a concrete upload failing twice then succeeding, and
a concrete doubling step. -/
theorem c7_amended_witness :
    uploadToR2Run (fun a => if a = 3 then .ok 7 else .error ⟨false, 500⟩) 3
      = ⟨.ok 7, 3, [2000, 4000]⟩
    ∧ backoffMs 2 = min (2 * backoffMs 1) 10000 :=
  ⟨c7_amended.1 (fun a => if a = 3 then .ok 7 else .error ⟨false, 500⟩)
      ⟨false, 500⟩ ⟨false, 500⟩ 7 (by decide) (by decide) (by decide),
    c7_amended.2.2 1⟩

/-- Counterexample for C7 as stated: a send that always fails with a
permanent authorization error is still attempted three times, with
backoff slept twice in between; the claim that failures classified as
permanent are not retried is false of the code, which inspects no
classification at all. -/
theorem c7_counterexample :
    (uploadToR2Run (fun _ => .error ⟨true, 403⟩) 3).stoppedAt = 3
    ∧ (uploadToR2Run (fun _ => .error ⟨true, 403⟩) 3).delays = [2000, 4000]
    ∧ (uploadToR2Run (fun _ => .error ⟨true, 403⟩) 3).result
        = .error ⟨⟨true, 403⟩, 3⟩ := by decide

/-! # The job progress slip -/

/-- Claim C8: the lifecycle part holds (a job is created queued and ends
done), but the progress stored when a chunk completes is computed from
the completing chunk's index, not from the number of completed chunks:
with two chunks completing out of order (chunk one first), the stored
progress is first one hundred — although only one of two chunks is done,
for which the claim prescribes fifty — and then drops back to fifty. -/
theorem c8_progress_bug :
    initialJob.status = JobStatus.queued
    ∧ (runSynthesis 2 [1, 0] initialJob).1.status = JobStatus.done
    ∧ (runSynthesis 2 [1, 0] initialJob).2 = [100, 50]
    ∧ claimedProgress 2 1 = 50
    ∧ (100 : Nat) ≠ 50 := by decide

/-! # Idempotent job submission -/

/-- Claim C10: posting the enqueue route twice for the same session id
leaves the store of the first post unchanged, starts no second worker,
and answers the identical 202 reply; sessions other than the posted one
are never touched, and the store, being a map, holds at most one job per
session id by construction. -/
theorem c10_idempotent_submit (enc : String → String)
    (store : String → Option Job) (sessionId : String) :
    (postTTSJob enc (postTTSJob enc store sessionId).store sessionId).store
      = (postTTSJob enc store sessionId).store
    ∧ (postTTSJob enc (postTTSJob enc store sessionId).store sessionId).reply
      = (postTTSJob enc store sessionId).reply
    ∧ (postTTSJob enc (postTTSJob enc store sessionId).store sessionId).started
      = false
    ∧ (sessionId ≠ "" →
        (postTTSJob enc store sessionId).reply
          = .accepted (statusUrl enc sessionId) (resultUrl enc sessionId))
    ∧ (∀ k, k ≠ sessionId →
        (postTTSJob enc store sessionId).store k = store k) := by
  by_cases hsid : sessionId = ""
  · simp [postTTSJob, hsid]
  · cases hst : store sessionId with
    | some j =>
      refine ⟨?_, ?_, ?_, fun _ => ?_, fun k _ => ?_⟩ <;>
        simp [postTTSJob, hsid, hst]
    | none =>
      have hupd : (postTTSJob enc store sessionId).store sessionId
          = some initialJob := by
        simp [postTTSJob, hsid, hst]
      refine ⟨?_, ?_, ?_, fun _ => ?_, fun k hk => ?_⟩
      · simp [postTTSJob, hsid, hst, hupd]
      · simp [postTTSJob, hsid, hst, hupd]
      · simp [postTTSJob, hsid, hst, hupd]
      · simp [postTTSJob, hsid, hst]
      · simp [postTTSJob, hsid, hst, hk]

/-- Witness for C10: the untouched-other-session part and the 202 reply
at concrete inputs. -/
theorem c10_witness :
    (postTTSJob id (fun _ => none) "s").store "t" = none
    ∧ (postTTSJob id (fun _ => none) "s").reply
        = .accepted (statusUrl id "s") (resultUrl id "s") :=
  ⟨(c10_idempotent_submit id (fun _ => none) "s").2.2.2.2 "t" (by decide),
    (c10_idempotent_submit id (fun _ => none) "s").2.2.2.1 (by decide)⟩

/-! # Lemmas about trimming -/

theorem trimL_noLead (l : List Char) : noLeadWs (trimL l) := by
  induction l with
  | nil => trivial
  | cons c cs ih =>
    by_cases hc : isWsChar c = true
    · simpa [trimL, List.dropWhile, hc] using ih
    · simp only [trimL, List.dropWhile, hc]
      simpa [noLeadWs] using hc

theorem trimR_lastNonWs (l : List Char) : lastNonWs (trimR l) := by
  induction l with
  | nil => trivial
  | cons c cs ih =>
    cases hr : trimR cs with
    | nil =>
      by_cases hc : isWsChar c = true
      · simp [trimR, hr, hc]
        trivial
      · simp only [trimR, hr, hc]
        simpa [lastNonWs] using hc
    | cons d ds =>
      rw [hr] at ih
      simp only [trimR, hr]
      exact ih

theorem trimR_noLead (l : List Char) (h : noLeadWs l) : noLeadWs (trimR l) := by
  cases l with
  | nil => trivial
  | cons c cs =>
    have hc : isWsChar c = false := h
    cases hr : trimR cs with
    | nil => simp [trimR, hr, hc]; exact hc
    | cons d ds => simp only [trimR, hr]; exact hc

theorem trimChars_noLead (l : List Char) : noLeadWs (trimChars l) :=
  trimR_noLead _ (trimL_noLead l)

theorem trimChars_lastNonWs (l : List Char) : lastNonWs (trimChars l) :=
  trimR_lastNonWs _

theorem trimL_eq_self (l : List Char) (h : noLeadWs l) : trimL l = l := by
  cases l with
  | nil => rfl
  | cons c cs =>
    have hc : isWsChar c = false := h
    simp [trimL, List.dropWhile, hc]

theorem trimR_eq_self (l : List Char) (h : lastNonWs l) : trimR l = l := by
  induction l with
  | nil => rfl
  | cons c cs ih =>
    cases cs with
    | nil =>
      have hc : isWsChar c = false := h
      simp [trimR, hc]
    | cons d ds =>
      have h' : lastNonWs (d :: ds) := h
      have heq := ih h'
      show (match trimR (d :: ds) with
            | [] => if isWsChar c = true then [] else [c]
            | r => c :: r) = c :: d :: ds
      rw [heq]

theorem trimChars_eq_self (l : List Char) (h1 : noLeadWs l)
    (h2 : lastNonWs l) : trimChars l = l := by
  rw [trimChars, trimL_eq_self l h1, trimR_eq_self l h2]

theorem mem_trimL (l : List Char) (c : Char) (h : c ∈ trimL l) : c ∈ l :=
  (List.dropWhile_sublist isWsChar).subset h

theorem mem_trimR (l : List Char) (c : Char) : c ∈ trimR l → c ∈ l := by
  induction l with
  | nil => intro h; simp [trimR] at h
  | cons d ds ih =>
    intro h
    have h' : c ∈ (match trimR ds with
        | [] => if isWsChar d = true then [] else [d]
        | r => d :: r) := h
    cases hr : trimR ds with
    | nil =>
      rw [hr] at h'
      have h'' : c ∈ (if isWsChar d = true then ([] : List Char) else [d]) := h'
      by_cases hd : isWsChar d = true
      · rw [if_pos hd] at h''
        simp at h''
      · rw [if_neg hd] at h''
        simp at h''
        simp [h'']
    | cons e es =>
      rw [hr] at h'
      have h'' : c ∈ d :: e :: es := h'
      rcases List.mem_cons.mp h'' with h1 | h1
      · simp [h1]
      · have h2 : c ∈ trimR ds := by rw [hr]; exact h1
        exact List.mem_cons_of_mem d (ih h2)

theorem mem_trimChars (l : List Char) (c : Char) (h : c ∈ trimChars l) : c ∈ l :=
  mem_trimL l c (mem_trimR (trimL l) c h)

/-! # Lemmas about whitespace collapsing -/

theorem mem_collapseGo (l : List Char) :
    ∀ b c, c ∈ collapseGo b l → c = ' ' ∨ c ∈ l := by
  induction l with
  | nil => intro b c h; simp [collapseGo] at h
  | cons d ds ih =>
    intro b c h
    by_cases hd : isWsChar d = true
    · cases b with
      | true =>
        simp only [collapseGo, hd, if_pos] at h
        rcases ih true c h with h1 | h1
        · exact Or.inl h1
        · exact Or.inr (List.mem_cons_of_mem d h1)
      | false =>
        simp only [collapseGo, hd, if_pos] at h
        rcases List.mem_cons.mp h with h1 | h1
        · exact Or.inl h1
        · rcases ih true c h1 with h2 | h2
          · exact Or.inl h2
          · exact Or.inr (List.mem_cons_of_mem d h2)
    · simp only [collapseGo, hd] at h
      rcases List.mem_cons.mp h with h1 | h1
      · exact Or.inr (by simp [h1])
      · rcases ih false c h1 with h2 | h2
        · exact Or.inl h2
        · exact Or.inr (List.mem_cons_of_mem d h2)

theorem collapseGo_allSpace (l : List Char) :
    ∀ b, allSpaceWs (collapseGo b l) := by
  induction l with
  | nil => intro b c h; simp [collapseGo] at h
  | cons d ds ih =>
    intro b c hc hws
    by_cases hd : isWsChar d = true
    · cases b with
      | true =>
        simp only [collapseGo, hd, if_pos] at hc
        exact ih true c hc hws
      | false =>
        simp only [collapseGo, hd, if_pos] at hc
        rcases List.mem_cons.mp hc with h1 | h1
        · exact h1
        · exact ih true c h1 hws
    · simp [collapseGo, hd] at hc
      rcases hc with h1 | h1
      · subst h1; exact absurd hws hd
      · exact ih false c h1 hws

theorem collapseGo_true_noLead (l : List Char) : noLeadWs (collapseGo true l) := by
  induction l with
  | nil => trivial
  | cons d ds ih =>
    by_cases hd : isWsChar d = true
    · simpa [collapseGo, hd] using ih
    · simp only [collapseGo, hd]
      exact (by simpa using hd : isWsChar d = false)

theorem collapseGo_false_noLead (l : List Char) (h : noLeadWs l) :
    noLeadWs (collapseGo false l) := by
  cases l with
  | nil => trivial
  | cons d ds =>
    have hd : isWsChar d = false := h
    simp only [collapseGo, hd]
    exact hd

theorem noAdjWs_cons_of (a : Char) (r : List Char) (hr : noAdjWs r)
    (h : isWsChar a = false ∨ noLeadWs r) : noAdjWs (a :: r) := by
  cases r with
  | nil => trivial
  | cons d ds =>
    refine ⟨?_, hr⟩
    rcases h with h1 | h1
    · rintro ⟨ha, _⟩; rw [h1] at ha; exact absurd ha (by simp)
    · rintro ⟨_, hd⟩
      have : isWsChar d = false := h1
      rw [this] at hd; exact absurd hd (by simp)

theorem collapseGo_noAdj (l : List Char) : ∀ b, noAdjWs (collapseGo b l) := by
  induction l with
  | nil => intro b; trivial
  | cons d ds ih =>
    intro b
    by_cases hd : isWsChar d = true
    · cases b with
      | true => simpa [collapseGo, hd] using ih true
      | false =>
        simp only [collapseGo, hd, if_pos]
        exact noAdjWs_cons_of ' ' _ (ih true) (Or.inr (collapseGo_true_noLead ds))
    · simp only [collapseGo, hd]
      exact noAdjWs_cons_of d _ (ih false) (Or.inl (by simpa using hd))

theorem lastNonWs_cons (c : Char) (r : List Char) (hne : r ≠ [])
    (h : lastNonWs r) : lastNonWs (c :: r) := by
  cases r with
  | nil => exact absurd rfl hne
  | cons d ds => exact h

theorem collapseGo_ne_nil (l : List Char) (hl : lastNonWs l) (hne : l ≠ []) :
    ∀ b, collapseGo b l ≠ [] := by
  induction l with
  | nil => exact absurd rfl hne
  | cons d ds ih =>
    intro b
    cases ds with
    | nil =>
      have hd : isWsChar d = false := hl
      simp [collapseGo, hd]
    | cons e es =>
      have hl' : lastNonWs (e :: es) := hl
      by_cases hd : isWsChar d = true
      · cases b with
        | true =>
          simp only [collapseGo, hd, if_pos]
          exact ih hl' (by simp) true
        | false => simp [collapseGo, hd]
      · simp [collapseGo, hd]

theorem collapseGo_lastNonWs (l : List Char) (hl : lastNonWs l) :
    ∀ b, lastNonWs (collapseGo b l) := by
  induction l with
  | nil => intro b; trivial
  | cons d ds ih =>
    intro b
    cases ds with
    | nil =>
      have hd : isWsChar d = false := hl
      simp only [collapseGo, hd]
      exact (hl : lastNonWs [d])
    | cons e es =>
      have hl' : lastNonWs (e :: es) := hl
      by_cases hd : isWsChar d = true
      · cases b with
        | true =>
          simp only [collapseGo, hd, if_pos]
          exact ih hl' true
        | false =>
          simp only [collapseGo, hd, if_pos]
          exact lastNonWs_cons ' ' _
            (collapseGo_ne_nil (e :: es) hl' (by simp) true) (ih hl' true)
      · simp only [collapseGo, hd]
        exact lastNonWs_cons d _
          (collapseGo_ne_nil (e :: es) hl' (by simp) false) (ih hl' false)

theorem collapseGo_fix (l : List Char) (hsp : allSpaceWs l) (hadj : noAdjWs l) :
    collapseGo false l = l ∧ (noLeadWs l → collapseGo true l = l) := by
  induction l with
  | nil => exact ⟨rfl, fun _ => rfl⟩
  | cons d ds ih =>
    have hsp' : allSpaceWs ds := fun c hc hw => hsp c (List.mem_cons_of_mem d hc) hw
    have hadj' : noAdjWs ds := by
      cases ds with
      | nil => trivial
      | cons e es => exact (hadj : _ ∧ _).2
    have ihh := ih hsp' hadj'
    by_cases hd : isWsChar d = true
    · have hds : d = ' ' := hsp d (by simp) hd
      have hnl : noLeadWs ds := by
        cases ds with
        | nil => trivial
        | cons e es =>
          have h1 := (hadj : _ ∧ _).1
          by_cases he : isWsChar e = true
          · exact absurd ⟨hd, he⟩ h1
          · simpa [noLeadWs] using he
      constructor
      · show (if isWsChar d = true then ' ' :: collapseGo true ds
              else d :: collapseGo false ds) = d :: ds
        rw [if_pos hd, ihh.2 hnl, hds]
      · intro hlead
        have : isWsChar d = false := hlead
        rw [this] at hd; exact absurd hd (by simp)
    · constructor
      · show (if isWsChar d = true then ' ' :: collapseGo true ds
              else d :: collapseGo false ds) = d :: ds
        rw [if_neg hd, ihh.1]
      · intro _
        show (if isWsChar d = true then collapseGo true ds
              else d :: collapseGo false ds) = d :: ds
        rw [if_neg hd, ihh.1]

/-- Claim C9 (amended): cleanText is idempotent on every string that
contains only characters its removal step keeps (word characters,
whitespace and the basic punctuation); on such strings it is trimming
plus whitespace collapsing, whose result is a fixed point.  On strings
with removable characters a second application can differ, because the
removal runs after the collapsing and can merge two whitespace runs. -/
theorem c9_amended (l : List Char) (h : ∀ c ∈ l, keepChar c = true) :
    cleanText (cleanText l) = cleanText l := by
  have hy : ∀ c ∈ collapseWs (trimChars l), keepChar c = true := by
    intro c hc
    rcases mem_collapseGo (trimChars l) false c hc with h1 | h1
    · subst h1; decide
    · exact h c (mem_trimChars l c h1)
  have h1 : cleanText l = collapseWs (trimChars l) :=
    List.filter_eq_self.mpr hy
  have hnl : noLeadWs (collapseWs (trimChars l)) :=
    collapseGo_false_noLead _ (trimChars_noLead l)
  have hlw : lastNonWs (collapseWs (trimChars l)) :=
    collapseGo_lastNonWs _ (trimChars_lastNonWs l) false
  have hsp : allSpaceWs (collapseWs (trimChars l)) := collapseGo_allSpace _ false
  have hadj : noAdjWs (collapseWs (trimChars l)) := collapseGo_noAdj _ false
  rw [h1]
  show cleanText (collapseWs (trimChars l)) = collapseWs (trimChars l)
  rw [cleanText, trimChars_eq_self _ hnl hlw,
    show collapseWs (collapseWs (trimChars l)) = collapseWs (trimChars l) from
      (collapseGo_fix _ hsp hadj).1]
  exact List.filter_eq_self.mpr hy

/-- Witness for C9: idempotence at a concrete keep-only string. -/
theorem c9_amended_witness :
    cleanText (cleanText "ab   cd:  e".toList) = cleanText "ab   cd:  e".toList :=
  c9_amended "ab   cd:  e".toList (by decide)

/-- Counterexample for C9 as stated: cleanText is not idempotent, because
removing the at sign after collapsing leaves a double space that only a
second application collapses. -/
theorem c9_counterexample :
    cleanText "a @ b".toList = "a  b".toList
    ∧ cleanText (cleanText "a @ b".toList) = "a b".toList
    ∧ cleanText (cleanText "a @ b".toList) ≠ cleanText "a @ b".toList := by
  decide

/-! # Lemmas about the chunk size bound of splitTextIntoChunks -/

theorem splitLoop_chunk_sizes (maxChunkSize : Nat) (T : List (List Char)) :
    ∀ (ss : List (List Char)) (cur : List Char),
      (∀ s ∈ ss, trimChars s ∈ T) →
      (cur = [] ∨ cur.length ≤ maxChunkSize
        ∨ (cur ∈ T ∧ maxChunkSize < cur.length)) →
      ∀ c ∈ splitLoop maxChunkSize cur ss,
        c.length ≤ maxChunkSize + 1
        ∨ ∃ t ∈ T, c = t ++ ['.'] ∧ maxChunkSize < t.length := by
  intro ss
  induction ss with
  | nil =>
    intro cur _ hcur c hc
    by_cases hemp : cur.isEmpty
    · simp [splitLoop, hemp] at hc
    · simp only [splitLoop, hemp, if_neg, Bool.false_eq_true, not_false_iff,
        List.mem_singleton] at hc
      subst hc
      rcases hcur with h | h | h
      · rw [h] at hemp; exact absurd rfl hemp
      · left; simp; omega
      · right; exact ⟨cur, h.1, rfl, h.2⟩
  | cons s ss ih =>
    intro cur hss hcur c hc
    have hsT : trimChars s ∈ T := hss s (by simp)
    have hss' : ∀ u ∈ ss, trimChars u ∈ T :=
      fun u hu => hss u (List.mem_cons_of_mem s hu)
    by_cases ht : (trimChars s).isEmpty
    · rw [show splitLoop maxChunkSize cur (s :: ss)
          = splitLoop maxChunkSize cur ss by simp [splitLoop, ht]] at hc
      exact ih cur hss' hcur c hc
    · by_cases hpot : (joinCur cur (trimChars s)).length ≤ maxChunkSize
      · rw [show splitLoop maxChunkSize cur (s :: ss)
            = splitLoop maxChunkSize (joinCur cur (trimChars s)) ss by
            simp [splitLoop, ht, hpot]] at hc
        exact ih (joinCur cur (trimChars s)) hss' (Or.inr (Or.inl hpot)) c hc
      · by_cases hemp : cur.isEmpty
        · rw [show splitLoop maxChunkSize cur (s :: ss)
              = (trimChars s ++ ['.']) :: splitLoop maxChunkSize [] ss by
              simp [splitLoop, ht, hpot, hemp]] at hc
          rcases List.mem_cons.mp hc with h1 | h1
          · right
            refine ⟨trimChars s, hsT, h1, ?_⟩
            have : joinCur cur (trimChars s) = trimChars s := by
              simp [joinCur, hemp]
            rw [this] at hpot
            omega
          · exact ih [] hss' (Or.inl rfl) c h1
        · rw [show splitLoop maxChunkSize cur (s :: ss)
              = (cur ++ ['.']) :: splitLoop maxChunkSize (trimChars s) ss by
              simp [splitLoop, ht, hpot, hemp]] at hc
          rcases List.mem_cons.mp hc with h1 | h1
          · subst h1
            rcases hcur with h | h | h
            · rw [h] at hemp; exact absurd rfl hemp
            · left; simp; omega
            · right; exact ⟨cur, h.1, rfl, h.2⟩
          · by_cases hlen : (trimChars s).length ≤ maxChunkSize
            · exact ih (trimChars s) hss' (Or.inr (Or.inl hlen)) c h1
            · exact ih (trimChars s) hss'
                (Or.inr (Or.inr ⟨hsT, by omega⟩)) c h1

/-- Claim C4 (amended): every chunk of splitTextIntoChunks has length at
most maxChunkSize plus one — a flushed buffer is within the budget, but
the appended terminal period may exceed it by one — except for chunks
consisting of a single trimmed sentence longer than the budget followed
by a period.  Such over-long sentences are emitted unsplit (no word- or
character-level splitting exists in this splitter), and nothing limits
how many of them occur. -/
theorem c4_amended (text : List Char) (maxChunkSize : Nat) :
    ∀ c ∈ splitTextIntoChunks text maxChunkSize,
      c.length ≤ maxChunkSize + 1
      ∨ ∃ t ∈ trimmedSentences text, c = t ++ ['.']
          ∧ maxChunkSize < t.length := by
  intro c hc
  have hmem : c ∈ splitLoop maxChunkSize [] (rawSentences text) :=
    List.mem_of_mem_filter hc
  exact splitLoop_chunk_sizes maxChunkSize (trimmedSentences text)
    (rawSentences text)
    []
    (fun s hs => List.mem_map_of_mem trimChars hs)
    (Or.inl rfl) c hmem

/-- Witness for C4: the bound at a concrete in-budget text. -/
theorem c4_amended_witness :
    "ab.".toList.length ≤ 5 + 1
    ∨ ∃ t ∈ trimmedSentences "ab.".toList, "ab.".toList = t ++ ['.']
        ∧ 5 < t.length :=
  c4_amended "ab.".toList 5 "ab.".toList (by decide)

/-- Counterexample for C4 as stated: with a budget of four bytes, the
text below yields two chunks of seven bytes each — two segments exceed
the budget, not a single pathological one, and each consists of a
multi-character word the splitter never force-splits. -/
theorem c4_counterexample :
    splitTextIntoChunks "aaaaaa. bbbbbb.".toList 4
      = ["aaaaaa.".toList, "bbbbbb.".toList]
    ∧ 4 < "aaaaaa.".toList.length
    ∧ 4 < "bbbbbb.".toList.length
    ∧ 2 ≤ ((splitTextIntoChunks "aaaaaa. bbbbbb.".toList 4).filter
        (fun c => decide (4 < c.length))).length := by decide

/-! # Lemmas about the sentence groups of chunkText -/

theorem isEmpty_false_of_ne_nil (l : List α) (h : l ≠ []) :
    l.isEmpty = false := by
  cases l with
  | nil => exact absurd rfl h
  | cons a as => rfl

theorem intercalateDot_ne_nil (acc : List (List Char))
    (hacc : ∀ g ∈ acc, g ≠ []) (ha : acc ≠ []) : intercalateDot acc ≠ [] := by
  match acc with
  | [] => exact absurd rfl ha
  | [t] =>
    have := hacc t (by simp)
    simpa [intercalateDot] using this
  | t :: u :: us => simp [intercalateDot]

theorem intercalateDot_append (t : List Char) :
    ∀ acc : List (List Char), intercalateDot (acc ++ [t])
      = if acc.isEmpty then t else intercalateDot acc ++ '.' :: ' ' :: t := by
  intro acc
  induction acc with
  | nil => simp [intercalateDot]
  | cons a as ih =>
    cases as with
    | nil => simp [intercalateDot]
    | cons b bs =>
      have ih' : intercalateDot (b :: (bs ++ [t]))
          = intercalateDot (b :: bs) ++ '.' :: ' ' :: t := by simpa using ih
      simp only [List.cons_append, intercalateDot, List.append_eq]
      rw [ih']
      simp [List.append_assoc]

theorem chunkTextLoop_eq_groups (maxLength : Nat) :
    ∀ (ss : List (List Char)) (acc : List (List Char)),
      (∀ g ∈ acc, g ≠ []) →
      (∀ s ∈ ss, trimChars s ≠ []) →
      chunkTextLoop maxLength (intercalateDot acc) ss
        = (groupLoop maxLength acc ss).map renderGroup := by
  intro ss
  induction ss with
  | nil =>
    intro acc hacc _
    by_cases ha : acc = []
    · subst ha; rfl
    · have h1 : (intercalateDot acc).isEmpty = false :=
        isEmpty_false_of_ne_nil _ (intercalateDot_ne_nil acc hacc ha)
      have h2 : acc.isEmpty = false := isEmpty_false_of_ne_nil acc ha
      simp [chunkTextLoop, groupLoop, h1, h2, renderGroup]
  | cons s ss ih =>
    intro acc hacc hss
    have hts : trimChars s ≠ [] := hss s (by simp)
    have hss' : ∀ u ∈ ss, trimChars u ≠ [] :=
      fun u hu => hss u (List.mem_cons_of_mem s hu)
    by_cases hg :
        (intercalateDot acc).length + (trimChars s).length + 1 ≤ maxLength
    · have e1 : chunkTextLoop maxLength (intercalateDot acc) (s :: ss)
          = chunkTextLoop maxLength
              (joinCur (intercalateDot acc) (trimChars s)) ss := by
        simp [chunkTextLoop, hg]
      have e2 : groupLoop maxLength acc (s :: ss)
          = groupLoop maxLength (acc ++ [trimChars s]) ss := by
        simp [groupLoop, hg]
      have e3 : joinCur (intercalateDot acc) (trimChars s)
          = intercalateDot (acc ++ [trimChars s]) := by
        rw [intercalateDot_append]
        by_cases ha : acc = []
        · subst ha; simp [joinCur, intercalateDot]
        · have h1 : (intercalateDot acc).isEmpty = false :=
            isEmpty_false_of_ne_nil _ (intercalateDot_ne_nil acc hacc ha)
          have h2 : acc.isEmpty = false := isEmpty_false_of_ne_nil acc ha
          simp [joinCur, h1, h2]
      rw [e1, e2, e3]
      refine ih (acc ++ [trimChars s]) (fun g hgm => ?_) hss'
      rcases List.mem_append.mp hgm with h | h
      · exact hacc g h
      · rw [List.mem_singleton.mp h]; exact hts
    · by_cases ha : acc = []
      · subst ha
        have hg' : ¬((trimChars s).length + 1 ≤ maxLength) := by
          simpa [intercalateDot] using hg
        have e1 : chunkTextLoop maxLength (intercalateDot []) (s :: ss)
            = chunkTextLoop maxLength (trimChars s) ss := by
          simp [chunkTextLoop, intercalateDot, hg']
        have e2 : groupLoop maxLength [] (s :: ss)
            = groupLoop maxLength [trimChars s] ss := by
          simp [groupLoop, intercalateDot, hg']
        rw [e1, e2]
        have := ih [trimChars s]
          (fun g hgm => by rw [List.mem_singleton.mp hgm]; exact hts) hss'
        simpa [intercalateDot] using this
      · have h1 : (intercalateDot acc).isEmpty = false :=
          isEmpty_false_of_ne_nil _ (intercalateDot_ne_nil acc hacc ha)
        have h2 : acc.isEmpty = false := isEmpty_false_of_ne_nil acc ha
        have e1 : chunkTextLoop maxLength (intercalateDot acc) (s :: ss)
            = (intercalateDot acc ++ ['.'])
                :: chunkTextLoop maxLength (trimChars s) ss := by
          simp [chunkTextLoop, hg, h1]
        have e2 : groupLoop maxLength acc (s :: ss)
            = acc :: groupLoop maxLength [trimChars s] ss := by
          simp [groupLoop, hg, h2]
        rw [e1, e2, List.map_cons]
        have := ih [trimChars s]
          (fun g hgm => by rw [List.mem_singleton.mp hgm]; exact hts) hss'
        rw [show intercalateDot [trimChars s] = trimChars s from rfl] at this
        rw [this, renderGroup]

theorem groupLoop_flatten (maxLength : Nat) :
    ∀ (ss : List (List Char)) (acc : List (List Char)),
      (groupLoop maxLength acc ss).flatten = acc ++ ss.map trimChars := by
  intro ss
  induction ss with
  | nil =>
    intro acc
    by_cases ha : acc = []
    · subst ha; rfl
    · have h2 : acc.isEmpty = false := isEmpty_false_of_ne_nil acc ha
      simp [groupLoop, h2]
  | cons s ss ih =>
    intro acc
    by_cases hg :
        (intercalateDot acc).length + (trimChars s).length + 1 ≤ maxLength
    · rw [show groupLoop maxLength acc (s :: ss)
          = groupLoop maxLength (acc ++ [trimChars s]) ss by
          simp [groupLoop, hg]]
      rw [ih (acc ++ [trimChars s])]
      simp
    · by_cases ha : acc = []
      · subst ha
        rw [show groupLoop maxLength [] (s :: ss)
            = groupLoop maxLength [trimChars s] ss by simp [groupLoop, hg]]
        rw [ih [trimChars s]]
        simp
      · have h2 : acc.isEmpty = false := isEmpty_false_of_ne_nil acc ha
        rw [show groupLoop maxLength acc (s :: ss)
            = acc :: groupLoop maxLength [trimChars s] ss by
            simp [groupLoop, hg, h2]]
        rw [List.flatten_cons, ih [trimChars s]]
        simp

theorem groupLoop_ne_nil (maxLength : Nat) :
    ∀ (ss : List (List Char)) (acc : List (List Char)), acc ≠ [] →
      ∀ g ∈ groupLoop maxLength acc ss, g ≠ [] := by
  intro ss
  induction ss with
  | nil =>
    intro acc ha g hg
    have h2 : acc.isEmpty = false := isEmpty_false_of_ne_nil acc ha
    simp only [groupLoop, h2, Bool.false_eq_true, if_neg, not_false_iff,
      List.mem_singleton] at hg
    rw [hg]; exact ha
  | cons s ss ih =>
    intro acc ha g hg
    by_cases hgd :
        (intercalateDot acc).length + (trimChars s).length + 1 ≤ maxLength
    · rw [show groupLoop maxLength acc (s :: ss)
          = groupLoop maxLength (acc ++ [trimChars s]) ss by
          simp [groupLoop, hgd]] at hg
      exact ih (acc ++ [trimChars s]) (by simp) g hg
    · have h2 : acc.isEmpty = false := isEmpty_false_of_ne_nil acc ha
      rw [show groupLoop maxLength acc (s :: ss)
          = acc :: groupLoop maxLength [trimChars s] ss by
          simp [groupLoop, hgd, h2]] at hg
      rcases List.mem_cons.mp hg with h | h
      · rw [h]; exact ha
      · exact ih [trimChars s] (by simp) g h

theorem groupLoop_nil_ne_nil (maxLength : Nat) (ss : List (List Char)) :
    ∀ g ∈ groupLoop maxLength [] ss, g ≠ [] := by
  cases ss with
  | nil => intro g hg; simp [groupLoop] at hg
  | cons s ss =>
    intro g hg
    by_cases hgd :
        (intercalateDot []).length + (trimChars s).length + 1 ≤ maxLength
    · rw [show groupLoop maxLength [] (s :: ss)
          = groupLoop maxLength [trimChars s] ss by
          simp [groupLoop, hgd, intercalateDot]] at hg
      exact groupLoop_ne_nil maxLength ss [trimChars s] (by simp) g hg
    · rw [show groupLoop maxLength [] (s :: ss)
          = groupLoop maxLength [trimChars s] ss by
          simp [groupLoop, hgd, intercalateDot]] at hg
      exact groupLoop_ne_nil maxLength ss [trimChars s] (by simp) g hg

theorem rawSentences_trim_ne_nil (text : List Char) :
    ∀ s ∈ rawSentences text, trimChars s ≠ [] := by
  intro s hs
  have := List.of_mem_filter hs
  intro hnil
  rw [hnil] at this
  simp at this

/-- Claim C3 (amended): chunkText does not reconstruct the input bytes —
terminal punctuation is rewritten and a period is appended — but it does
preserve the input at sentence granularity: the chunks are exactly the
renderings of a partition of the input's trimmed sentence list (the input
split on runs of terminal punctuation, fields trimmed, blank fields
dropped) into consecutive non-empty groups, each group joined with a
period and a space and terminated with a period.  Concatenating the
groups in order reproduces every trimmed sentence exactly once, in input
order — no sentence is lost or duplicated. -/
theorem c3_amended (text : List Char) (maxLength : Nat) :
    chunkText text maxLength = (sentenceGroups text maxLength).map renderGroup
    ∧ (sentenceGroups text maxLength).flatten = trimmedSentences text
    ∧ ∀ g ∈ sentenceGroups text maxLength, g ≠ [] := by
  refine ⟨?_, ?_, groupLoop_nil_ne_nil maxLength (rawSentences text)⟩
  · by_cases ht : text = []
    · subst ht; rfl
    · have h2 : text.isEmpty = false := isEmpty_false_of_ne_nil text ht
      rw [chunkText, h2]
      simp only [Bool.false_eq_true, if_neg, not_false_iff]
      have := chunkTextLoop_eq_groups maxLength (rawSentences text) []
        (fun g hg => by simp at hg) (rawSentences_trim_ne_nil text)
      simpa [intercalateDot, sentenceGroups] using this
  · rw [sentenceGroups, groupLoop_flatten maxLength (rawSentences text) []]
    rfl

/-- Witness for C3: the group decomposition at a concrete two-sentence
text, and the non-emptiness of a concrete group. -/
theorem c3_amended_witness :
    chunkText "Hi. Yo.".toList 2
      = (sentenceGroups "Hi. Yo.".toList 2).map renderGroup
    ∧ (["Hi".toList] : List (List Char)) ≠ [] :=
  ⟨(c3_amended "Hi. Yo.".toList 2).1,
    (c3_amended "Hi. Yo.".toList 2).2.2 ["Hi".toList] (by decide)⟩

/-- Counterexample for C3 as stated: the single-word input below gains a
terminal period, so the concatenated chunks differ from the normalized
input even modulo whitespace normalization — a byte appears in the
output that no whitespace-collapse of the input contains. -/
theorem c3_counterexample :
    chunkText "Hi".toList 500 = ["Hi.".toList]
    ∧ (chunkText "Hi".toList 500).flatten = "Hi.".toList
    ∧ collapseWs (trimChars (chunkText "Hi".toList 500).flatten)
        ≠ collapseWs (trimChars "Hi".toList) := by decide

end Podcast
